import Mathlib

/-!
# Verification of the pypi-data downloader

Shallow embedding of `pypi_data_downloader/cli.py`.  The two commands,
`download_changelog` and `download_releases`, are translated as pure functions
over their I/O boundaries: the XML-RPC / JSON endpoints become function-valued
oracles, the filesystem becomes explicit `Option`-valued state, and every
Python `dict` becomes an association list in insertion order (Python dicts
preserve insertion order, and the code serializes them back to JSON).
-/

namespace PypiData

/-- Python dict lookup `d.get(k)` on an association list (first match wins;
the lists we build have distinct keys, matching Python dicts). -/
def lookup? {α : Type} (l : List (String × α)) (k : String) : Option α :=
  (l.find? (fun p => p.1 == k)).map (·.2)

/-- Python dict assignment `d[k] = v`: replaces the value in place when the
key exists (preserving insertion order), otherwise appends the new pair. -/
def setKey {α : Type} (m : List (String × α)) (k : String) (v : α) :
    List (String × α) :=
  if (lookup? m k).isSome then m.map (fun p => if p.1 == k then (k, v) else p)
  else m ++ [(k, v)]

/-- The value a key of `prev` ends up with under `{**prev, **new}`: overridden
by `new` where present, kept otherwise. -/
def mergeEntry {α : Type} (new : List (String × α)) (p : String × α) :
    String × α :=
  match lookup? new p.1 with
  | some v => (p.1, v)
  | none => p

/-- Python `{**prev, **new}`: keys of `prev` keep their position with values
overridden by `new` where present; keys only in `new` are appended in order. -/
def dictMerge {α : Type} (prev new : List (String × α)) : List (String × α) :=
  prev.map (mergeEntry new) ++
  new.filter (fun p => (lookup? prev p.1).isNone)

/-! ## `download_changelog` (cli.py lines 30-89) -/

/-- One raw changelog tuple `(name, version, timestamp, action, serial)` as
returned by `changelog_since_serial`. -/
structure RawEvent where
  name : String
  version : String
  timestamp : Int
  action : String
  serial : Int
deriving DecidableEq

/-- The event dict built in the fetch loop (lines 53-62).  The
`datetime.fromtimestamp(...).isoformat()` re-encoding of the timestamp is an
injective reformatting, so the timestamp is kept numeric. -/
structure Event where
  name : String
  version : String
  action : String
  timestamp : Int
  serial : Int
deriving DecidableEq

def toEvent (e : RawEvent) : Event :=
  { name := e.name, version := e.version, action := e.action,
    timestamp := e.timestamp, serial := e.serial }

/-- The `serials.json` cursor state of `download_changelog`. -/
structure Serials where
  lowest : Int
  highest : Int
deriving DecidableEq

/-- Line 64: `max(c[4] for c in changelog)`.  Only ever applied to a
non-empty batch (the loop breaks on an empty one first); Python would raise
on `[]`, the `0` default is never reached. -/
def maxSerial : List RawEvent → Int
  | [] => 0
  | e :: es => es.foldl (fun a x => max a x.serial) e.serial

/-- One iteration of the `while` body (lines 50-65): fetch the changelog
since `s.lowest`, extend `events`, move `lowest` up to the batch's maximum
serial.  `none` models `if not changelog: break`. -/
def changelogIteration (fetch : Int → List RawEvent) (s : Serials)
    (evs : List Event) : Option (Serials × List Event) :=
  let changelog := fetch s.lowest
  if changelog.isEmpty then none
  else some ({ s with lowest := maxSerial changelog },
             evs ++ changelog.map toEvent)

/-- The fetch loop of `download_changelog` (lines 49-68), with explicit fuel:
a property proved for every fuel holds for every terminating run.  Line 67's
`if len(events) >= limit: break` is checked after the batch is appended. -/
def fetchLoop (fetch : Int → List RawEvent) (limit : Int) :
    Nat → Serials → List Event → Serials × List Event
  | 0, s, evs => (s, evs)
  | fuel + 1, s, evs =>
    if s.lowest < s.highest then
      match changelogIteration fetch s evs with
      | none => (s, evs)
      | some (s', evs') =>
        if limit ≤ (evs'.length : Int) then (s', evs')
        else fetchLoop fetch limit fuel s' evs'
    else (s, evs)

/-- What `download_changelog` can raise after the loop: the `min_events`
`ClickException` (line 71), or Python's `ValueError` from `min()` over the
empty `events` generator at line 75. -/
inductive ChangelogError
  | insufficientEvents
  | emptyMinArg
deriving DecidableEq

/-- A successful `download_changelog` run: the artifact range and contents,
and the cursor state written back to `serials.json`. -/
structure ChangelogOutput where
  startId : Int
  endId : Int
  events : List Event
  serials : Serials
deriving DecidableEq

/-- Line 75: `min(e["serial"] for e in events)` (guarded non-empty). -/
def minEventSerial : List Event → Int
  | [] => 0
  | e :: es => es.foldl (fun a x => min a x.serial) e.serial

/-- Line 76: `max(e["serial"] for e in events)` (guarded non-empty). -/
def maxEventSerial : List Event → Int
  | [] => 0
  | e :: es => es.foldl (fun a x => max a x.serial) e.serial

/-- Python truthiness of the `--min-events` option at line 70: `None` and `0`
are falsy. -/
def minEventsTruthy : Option Int → Bool
  | none => false
  | some n => n != 0

/-- `download_changelog` (lines 30-84) over its I/O boundaries.  `initLowest`
is the stored cursor (0 when `serials.json` is absent), `highestSerial` the
remote `changelog_last_serial()`.  An `.error` means the run raised before
writing the artifact or the cursor file. -/
def download_changelog (fetch : Int → List RawEvent) (limit : Int)
    (min_events : Option Int) (fuel : Nat) (initLowest highestSerial : Int) :
    Except ChangelogError ChangelogOutput :=
  let s0 : Serials := { lowest := initLowest, highest := highestSerial }
  let r := fetchLoop fetch limit fuel s0 []
  let events := r.2
  if minEventsTruthy min_events && (events.length : Int) < min_events.getD 0 then
    .error .insufficientEvents
  else if events.isEmpty then
    .error .emptyMinArg
  else
    .ok { startId := minEventSerial events, endId := maxEventSerial events,
          events := events, serials := r.1 }

/-! ## `process_package` (cli.py lines 144-209) -/

/-- The `info` dict of a per-version release blob: the `description` entry
(`none` when absent) plus the rest of the dict, kept opaque. -/
structure Info where
  description : Option String
  rest : String
deriving DecidableEq

/-- One per-version blob from `https://pypi.org/pypi/{name}/{version}/json`. -/
structure ReleaseInfo where
  info : Info
  rest : String
deriving DecidableEq

/-- Line 197: `release_info["info"].pop("description", "")` (the default arm
makes a missing description a no-op, hence `Option`). -/
def popDescription (r : ReleaseInfo) : ReleaseInfo :=
  { r with info := { r.info with description := none } }

/-- A per-package record file: version string → release blob, in insertion
order. -/
abbrev Record := List (String × ReleaseInfo)

/-- The `for version in package_releases` loop (lines 160-174).  Returns the
versions actually requested from the per-version endpoint, and either
`.error ()` when some fetch raised `NotFound` (the `break` that sets
`skip = True`) or the accumulated `releases` dict. -/
def fetchReleases (fetchVersion : String → Except Unit ReleaseInfo) :
    List String → List String × Except Unit Record
  | [] => ([], .ok [])
  | v :: vs =>
    if v == ".." then fetchReleases fetchVersion vs
    else
      match fetchVersion v with
      | .error _ => ([v], .error ())
      | .ok ri =>
        let r := fetchReleases fetchVersion vs
        (v :: r.1, r.2.map (fun rest => (v, ri) :: rest))

/-- Lines 195-197: `for idx, release_info in enumerate(reversed(...))`:
every fetched release except the last one in insertion order loses its
description. -/
def stripDescriptions : Record → Record
  | [] => []
  | [x] => [x]
  | x :: y :: xs => (x.1, popDescription x.2) :: stripDescriptions (y :: xs)

/-- The per-item stats dict returned at lines 203-209. -/
structure PkgStats where
  not_found : Bool
  releases : Nat
  modified : Bool
  new : Bool
  skipped : Bool
deriving DecidableEq

/-- The full return value of `process_package`, plus the record write it
performed (`written = none` when no file was written). -/
structure PkgResult where
  name : String
  serial : Int
  skip : Bool
  stats : PkgStats
  written : Option Record
deriving DecidableEq

/-- Assemble the `return` at lines 203-209 from the final values of the
local flags; `new` is literally `not not_found and not modified`. -/
def mkPkgResult (name : String) (serial : Int)
    (not_found modified skip : Bool) (total : Nat)
    (written : Option Record) : PkgResult :=
  { name := name, serial := serial, skip := skip,
    stats := { not_found := not_found, releases := total, modified := modified,
               new := !not_found && !modified, skipped := skip },
    written := written }

/-- `process_package` (lines 144-209) over its I/O boundaries: `fetchSummary`
is the `/{name}/json` result restricted to `["releases"].keys()` (in dict
order), `fetchVersion` the `/{name}/{version}/json` endpoint, `existing` the
current content of the package's record file (`none` when absent). -/
def process_package (fetchSummary : Except Unit (List String))
    (fetchVersion : String → Except Unit ReleaseInfo)
    (existing : Option Record) (name : String) (serial : Int) : PkgResult :=
  match fetchSummary with
  | .error _ => mkPkgResult name serial true false false 0 none
  | .ok package_releases =>
    let total := package_releases.length
    match (fetchReleases fetchVersion package_releases).2 with
    | .error _ => mkPkgResult name serial false false true total none
    | .ok releases =>
      let modified := existing.isSome
      let previous_data := existing.getD []
      let merged := dictMerge previous_data (stripDescriptions releases)
      mkPkgResult name serial false modified false total (some merged)

/-! ## `download_releases` (cli.py lines 96-141) -/

/-- The `key=operator.itemgetter(1)` comparison of line 114. -/
def markerLe (p q : String × Int) : Prop := p.2 ≤ q.2

instance : DecidableRel markerLe :=
  fun p q => inferInstanceAs (Decidable (p.2 ≤ q.2))

instance : IsTotal (String × Int) markerLe := ⟨fun p q => Int.le_total p.2 q.2⟩

instance : IsTrans (String × Int) markerLe := ⟨fun _ _ _ h h' => le_trans h h'⟩

/-- Lines 113-115: `sorted(server_packages_by_serial.items(), key=itemgetter(1))`.
Python's sort is stable, and insertion sort with a non-strict key comparison
computes exactly the stable ascending sort. -/
def sorted_changes (remote : List (String × Int)) : List (String × Int) :=
  List.insertionSort markerLe remote

/-- Lines 117-119: keep the pairs whose stored checkpoint differs from (or is
absent for) the remote marker. -/
def changed_packages (remote stored : List (String × Int)) :
    List (String × Int) :=
  (sorted_changes remote).filter (fun p => lookup? stored p.1 != some p.2)

/-- Python `l[0:limit]` for an arbitrary (possibly negative) `int` limit. -/
def pySlice0 {α : Type} (limit : Int) (l : List α) : List α :=
  if 0 ≤ limit then l.take limit.toNat else l.take (l.length - (-limit).toNat)

/-- Line 120: `changed_packages[0:limit]`. -/
def packages_to_process (remote stored : List (String × Int)) (limit : Int) :
    List (String × Int) :=
  pySlice0 limit (changed_packages remote stored)

/-- The spec's reading of the work queue (§4.4 steps 2-4): filter the remote
map first, then stable-sort ascending by marker, then truncate. -/
def specWorkQueue (remote stored : List (String × Int)) (limit : Int) :
    List (String × Int) :=
  pySlice0 limit (List.insertionSort markerLe
    (remote.filter (fun p => lookup? stored p.1 != some p.2)))

/-- Python's `str.lower()`.  (PyPI package names are ASCII; `String.toLower`
maps `Char.toLower` over the string but is expressed via byte positions,
which blocks kernel reduction, so the same character map is written
structurally here.) -/
def lowerName (s : String) : String := ⟨s.data.map Char.toLower⟩

/-- Lines 138-139: `if not skip: serials[name.lower()] = serial`, applied to
one `(name, serial, skip)` result. -/
def applyResult (serials : List (String × Int)) (r : String × Int × Bool) :
    List (String × Int) :=
  if r.2.2 then serials else setKey serials (lowerName r.1) r.2.1

/-- `download_releases` (lines 96-141) over its I/O boundaries.  `remote` is
the already-lowercased `server_packages_by_serial` in dict order, `stored`
the loaded `serials.json` map, `disk` maps a lowercase package name to its
current record file content (directory sharding is a function of the name, so
the lowered name identifies the file).  Returns the final checkpoint map and
the record-file writes performed, in completion order. -/
def download_releases (fetchSummary : String → Except Unit (List String))
    (fetchVersion : String → String → Except Unit ReleaseInfo)
    (disk : String → Option Record)
    (remote stored : List (String × Int)) (limit : Int) :
    List (String × Int) × List (String × Record) :=
  let queue := packages_to_process remote stored limit
  let results := queue.map (fun p =>
    process_package (fetchSummary p.1) (fetchVersion p.1) (disk (lowerName p.1))
      p.1 p.2)
  let serials' := results.foldl
    (fun m r => applyResult m (r.name, r.serial, r.skip)) stored
  let writes := results.filterMap
    (fun r => r.written.map (fun w => ((lowerName r.name), w)))
  (serials', writes)

/-! ## Association-list (Python dict) lemmas -/

/-! ## Association-list (Python dict) lemmas -/

theorem lookup?_nil {α : Type} (k : String) :
    lookup? ([] : List (String × α)) k = none :=
  rfl

theorem lookup?_cons {α : Type} (p : String × α) (l : List (String × α)) (k : String) :
    lookup? (p :: l) k = if p.1 == k then some p.2 else lookup? l k := by
  unfold lookup?
  cases hpk : (p.1 == k) with
  | true => simp [List.find?, hpk]
  | false => simp [List.find?, hpk]

theorem lookup?_append {α : Type} (l₁ l₂ : List (String × α)) (k : String) :
    lookup? (l₁ ++ l₂) k = (lookup? l₁ k).or (lookup? l₂ k) := by
  unfold lookup?
  rw [List.find?_append]
  cases l₁.find? (fun p => p.1 == k) <;> rfl

theorem find?_key_map {α : Type} {f : String × α → String × α}
    (hf : ∀ p, (f p).1 = p.1) (l : List (String × α)) (k : String) :
    (l.map f).find? (fun p => p.1 == k) =
      (l.find? (fun p => p.1 == k)).map f := by
  induction l with
  | nil => rfl
  | cons p rest ih =>
    rw [List.map_cons]
    cases hpk : (p.1 == k) with
    | true =>
      have hfk : ((f p).1 == k) = true := by rw [hf p]; exact hpk
      simp [List.find?, hpk, hfk]
    | false =>
      have hfk : ((f p).1 == k) = false := by rw [hf p]; exact hpk
      simp only [List.find?, hfk, hpk]
      exact ih

theorem lookup?_map {α : Type} {f : String × α → String × α}
    (hf : ∀ p, (f p).1 = p.1) (l : List (String × α)) (k : String) :
    lookup? (l.map f) k =
      (l.find? (fun p => p.1 == k)).map (fun p => (f p).2) := by
  unfold lookup?
  rw [find?_key_map hf]
  cases l.find? (fun p => p.1 == k) <;> rfl

theorem find?_filter_of_imp {α : Type} {l : List α} {q g : α → Bool}
    (h : ∀ a, q a = true → g a = true) :
    (l.filter g).find? q = l.find? q := by
  induction l with
  | nil => rfl
  | cons x xs ih =>
    by_cases hg : g x
    · rw [List.filter_cons_of_pos hg]
      by_cases hq : q x
      · rw [List.find?_cons_of_pos _ hq, List.find?_cons_of_pos _ hq]
      · rw [List.find?_cons_of_neg _ hq, List.find?_cons_of_neg _ hq]
        exact ih
    · rw [List.filter_cons_of_neg hg]
      have hq : ¬ q x = true := fun hq => hg (h x hq)
      rw [List.find?_cons_of_neg _ hq]
      exact ih

theorem lookup_eq_none_of_not_mem {α : Type} {l : List (String × α)} {k : String}
    (h : k ∉ l.map Prod.fst) : lookup? l k = none := by
  induction l with
  | nil => rfl
  | cons p rest ih =>
    simp only [List.map_cons, List.mem_cons, not_or] at h
    have hne : ¬ (p.1 == k) = true := fun hb => h.1 (beq_iff_eq.1 hb).symm
    rw [lookup?_cons, if_neg hne]
    exact ih h.2

theorem nodup_fst_eq {α : Type} {l : List (String × α)} {k : String} {a b : α}
    (h : (l.map Prod.fst).Nodup) (ha : (k, a) ∈ l) (hb : (k, b) ∈ l) : a = b := by
  induction l with
  | nil => cases ha
  | cons p rest ih =>
    simp only [List.map_cons, List.nodup_cons] at h
    rcases List.mem_cons.1 ha with ha' | ha'
    · rcases List.mem_cons.1 hb with hb' | hb'
      · rw [← ha'] at hb'
        injection hb' with h1 h2
        exact h2.symm
      · exfalso
        apply h.1
        have hk : k ∈ List.map Prod.fst rest := List.mem_map_of_mem Prod.fst hb'
        rw [← ha']
        exact hk
    · rcases List.mem_cons.1 hb with hb' | hb'
      · exfalso
        apply h.1
        have hk : k ∈ List.map Prod.fst rest := List.mem_map_of_mem Prod.fst ha'
        rw [← hb']
        exact hk
      · exact ih h.2 ha' hb'

theorem lookup_of_nodup_mem {α : Type} {l : List (String × α)} {k : String} {v : α}
    (h : (l.map Prod.fst).Nodup) (hm : (k, v) ∈ l) : lookup? l k = some v := by
  induction l with
  | nil => cases hm
  | cons p rest ih =>
    simp only [List.map_cons, List.nodup_cons] at h
    rw [lookup?_cons]
    by_cases hpk : (p.1 == k) = true
    · rw [if_pos hpk]
      rcases List.mem_cons.1 hm with hm' | hm'
      · rw [← hm']
      · exfalso
        apply h.1
        have hk : k ∈ List.map Prod.fst rest := List.mem_map_of_mem Prod.fst hm'
        rw [beq_iff_eq.1 hpk]
        exact hk
    · rw [if_neg hpk]
      rcases List.mem_cons.1 hm with hm' | hm'
      · exfalso
        rw [← hm'] at hpk
        simp at hpk
      · exact ih h.2 hm'

theorem lookup_setKey_self {α : Type} (m : List (String × α)) (k : String) (v : α) :
    lookup? (setKey m k v) k = some v := by
  unfold setKey
  by_cases h : (lookup? m k).isSome
  · rw [if_pos h]
    have hf : ∀ p : String × α,
        ((fun p : String × α => if p.1 == k then (k, v) else p) p).1 = p.1 := by
      intro p
      show (if (p.1 == k) = true then (k, v) else p).1 = p.1
      by_cases hp : (p.1 == k) = true
      · rw [if_pos hp]
        exact (beq_iff_eq.1 hp).symm
      · rw [if_neg hp]
    rw [lookup?_map hf]
    unfold lookup? at h
    rw [Option.isSome_map'] at h
    obtain ⟨q, hq⟩ := Option.isSome_iff_exists.1 h
    rw [hq]
    have hqk : (q.1 == k) = true := by
      have hp := List.find?_some hq
      simpa using hp
    simp only [Option.map_some']
    show some (if (q.1 == k) = true then (k, v) else q).2 = some v
    rw [if_pos hqk]
  · rw [if_neg h]
    rw [lookup?_append]
    rw [Option.not_isSome_iff_eq_none.1 h, Option.none_or, lookup?_cons]
    rw [if_pos (beq_self_eq_true k)]

theorem lookup_setKey_ne {α : Type} (m : List (String × α)) (k : String) (v : α)
    {k' : String} (h : k' ≠ k) : lookup? (setKey m k v) k' = lookup? m k' := by
  unfold setKey
  by_cases hs : (lookup? m k).isSome
  · rw [if_pos hs]
    have hf : ∀ p : String × α,
        ((fun p : String × α => if p.1 == k then (k, v) else p) p).1 = p.1 := by
      intro p
      show (if (p.1 == k) = true then (k, v) else p).1 = p.1
      by_cases hp : (p.1 == k) = true
      · rw [if_pos hp]
        exact (beq_iff_eq.1 hp).symm
      · rw [if_neg hp]
    rw [lookup?_map hf]
    unfold lookup?
    cases he : m.find? (fun p => p.1 == k') with
    | none => rfl
    | some q =>
      have hq1 : q.1 = k' := by
        have hp := List.find?_some he
        simpa using hp
      have hqk : ¬ (q.1 == k) = true := by
        rw [beq_iff_eq, hq1]
        exact h
      simp only [Option.map_some']
      show some (if (q.1 == k) = true then (k, v) else q).2 = some q.2
      rw [if_neg hqk]
  · rw [if_neg hs]
    rw [lookup?_append, lookup?_cons]
    have hkk : ¬ (k == k') = true := by
      rw [beq_iff_eq]
      exact fun hh => h hh.symm
    rw [if_neg hkk, lookup?_nil, Option.or_none]

theorem mergeEntry_fst {α : Type} (new : List (String × α)) (p : String × α) :
    (mergeEntry new p).1 = p.1 := by
  unfold mergeEntry
  cases lookup? new p.1 <;> rfl

theorem lookup_dictMerge_of_mem_left {α : Type} {prev : List (String × α)}
    (new : List (String × α)) {k : String}
    (h : (lookup? prev k).isSome) : (lookup? (dictMerge prev new) k).isSome := by
  unfold dictMerge
  rw [lookup?_append, lookup?_map (mergeEntry_fst new)]
  unfold lookup? at h
  rw [Option.isSome_map'] at h
  obtain ⟨q, hq⟩ := Option.isSome_iff_exists.1 h
  rw [hq]
  simp

theorem lookup_dictMerge_of_mem_right {α : Type} (prev : List (String × α))
    {new : List (String × α)} {k : String}
    (h : (lookup? new k).isSome) :
    lookup? (dictMerge prev new) k = lookup? new k := by
  unfold dictMerge
  rw [lookup?_append, lookup?_map (mergeEntry_fst new)]
  cases he : prev.find? (fun p => p.1 == k) with
  | some q =>
    have hq1 : q.1 = k := by
      have hp := List.find?_some he
      simpa using hp
    obtain ⟨w, hw⟩ := Option.isSome_iff_exists.1 h
    simp only [Option.map_some', Option.or_some]
    show some (mergeEntry new q).2 = lookup? new k
    unfold mergeEntry
    rw [hq1, hw]
  | none =>
    simp only [Option.map_none', Option.none_or]
    unfold lookup?
    rw [find?_filter_of_imp]
    intro a ha
    have ha1 : a.1 = k := by simpa using ha
    rw [ha1, he]
    rfl

theorem lookup_dictMerge_isSome {α : Type} {prev new : List (String × α)}
    {k : String} (h : (lookup? (dictMerge prev new) k).isSome) :
    (lookup? prev k).isSome ∨ (lookup? new k).isSome := by
  by_contra hc
  push_neg at hc
  have hp : lookup? prev k = none := Option.not_isSome_iff_eq_none.1 hc.1
  have hn : lookup? new k = none := Option.not_isSome_iff_eq_none.1 hc.2
  unfold dictMerge at h
  rw [lookup?_append, lookup?_map (mergeEntry_fst new)] at h
  unfold lookup? at hp hn
  have hp' : prev.find? (fun p => p.1 == k) = none := by
    cases hfp : prev.find? (fun p => p.1 == k) with
    | none => rfl
    | some q => rw [hfp] at hp; simp at hp
  have hn' : new.find? (fun p => p.1 == k) = none := by
    cases hfn : new.find? (fun p => p.1 == k) with
    | none => rfl
    | some q => rw [hfn] at hn; simp at hn
  rw [hp'] at h
  simp only [Option.map_none', Option.none_or] at h
  unfold lookup? at h
  rw [find?_filter_of_imp] at h
  · rw [hn'] at h
    simp at h
  · intro a ha
    have ha1 : a.1 = k := by simpa using ha
    rw [ha1, hp']
    rfl

/-! ## Changelog lemmas -/

theorem le_foldl_max (l : List RawEvent) (a : Int) :
    a ≤ l.foldl (fun x e => max x e.serial) a := by
  induction l generalizing a with
  | nil => exact le_refl a
  | cons e es ih => exact le_trans (le_max_left a e.serial) (ih (max a e.serial))

theorem mem_le_foldl_max : ∀ (l : List RawEvent) (a : Int) (e : RawEvent),
    e ∈ l → e.serial ≤ l.foldl (fun x x' => max x x'.serial) a
  | [], _, e, h => absurd h (List.not_mem_nil e)
  | f :: fs, a, e, h => by
    rcases List.mem_cons.1 h with h' | h'
    · rw [h']
      exact le_trans (le_max_right a f.serial) (le_foldl_max fs (max a f.serial))
    · exact mem_le_foldl_max fs (max a f.serial) e h'

theorem foldl_max_mem : ∀ (l : List RawEvent) (a : Int),
    l.foldl (fun x e => max x e.serial) a = a ∨
      ∃ e ∈ l, l.foldl (fun x e => max x e.serial) a = e.serial
  | [], _ => Or.inl rfl
  | f :: fs, a => by
    rcases foldl_max_mem fs (max a f.serial) with h | ⟨e, he, heq⟩
    · rcases max_choice a f.serial with hm | hm
      · exact Or.inl (by rw [List.foldl_cons, h, hm])
      · exact Or.inr ⟨f, List.mem_cons_self f fs, by rw [List.foldl_cons, h, hm]⟩
    · exact Or.inr ⟨e, List.mem_cons_of_mem f he, by rw [List.foldl_cons, heq]⟩

theorem maxSerial_mem : ∀ {l : List RawEvent}, l ≠ [] →
    ∃ e ∈ l, maxSerial l = e.serial
  | [], h => absurd rfl h
  | f :: fs, _ => by
    unfold maxSerial
    rcases foldl_max_mem fs f.serial with h' | ⟨e, he, heq⟩
    · exact ⟨f, List.mem_cons_self f fs, h'⟩
    · exact ⟨e, List.mem_cons_of_mem f he, heq⟩

theorem le_maxSerial : ∀ {l : List RawEvent} {e : RawEvent}, e ∈ l →
    e.serial ≤ maxSerial l
  | [], e, h => absurd h (List.not_mem_nil e)
  | f :: fs, e, h => by
    unfold maxSerial
    rcases List.mem_cons.1 h with h' | h'
    · rw [h']
      exact le_foldl_max fs f.serial
    · exact mem_le_foldl_max fs f.serial e h'

theorem changelogIteration_eq_some {fetch : Int → List RawEvent} {s : Serials}
    {evs : List Event} {s' : Serials} {evs' : List Event}
    (h : changelogIteration fetch s evs = some (s', evs')) :
    s'.lowest = maxSerial (fetch s.lowest) ∧ fetch s.lowest ≠ [] ∧
      evs' = evs ++ (fetch s.lowest).map toEvent ∧ s'.highest = s.highest := by
  unfold changelogIteration at h
  by_cases hne : (fetch s.lowest).isEmpty
  · rw [if_pos hne] at h
    cases h
  · rw [if_neg hne] at h
    injection h with h'
    injection h' with h1 h2
    refine ⟨by rw [← h1], ?_, h2.symm, by rw [← h1]⟩
    intro hnil
    apply hne
    rw [hnil]
    rfl

theorem fetchLoop_caught_up {fetch : Int → List RawEvent} {limit : Int}
    (fuel : Nat) {s : Serials} (evs : List Event) (h : ¬ s.lowest < s.highest) :
    fetchLoop fetch limit fuel s evs = (s, evs) := by
  cases fuel with
  | zero => rfl
  | succ n =>
    unfold fetchLoop
    rw [if_neg h]

theorem fetchLoop_lowest_mono {fetch : Int → List RawEvent} {limit : Int}
    (hc : ∀ t : Int, ∀ e ∈ fetch t, t < e.serial) :
    ∀ (fuel : Nat) (s : Serials) (evs : List Event),
      s.lowest ≤ (fetchLoop fetch limit fuel s evs).1.lowest := by
  intro fuel
  induction fuel with
  | zero =>
    intro s evs
    exact le_refl _
  | succ n ih =>
    intro s evs
    unfold fetchLoop
    by_cases hlt : s.lowest < s.highest
    · rw [if_pos hlt]
      cases hit : changelogIteration fetch s evs with
      | none => exact le_refl _
      | some pr =>
        obtain ⟨s', evs'⟩ := pr
        show s.lowest ≤ (if limit ≤ ((evs'.length : Int)) then (s', evs')
            else fetchLoop fetch limit n s' evs').1.lowest
        obtain ⟨hlow, hne, -, -⟩ := changelogIteration_eq_some hit
        have hstep : s.lowest ≤ s'.lowest := by
          obtain ⟨e, he, hmax⟩ := maxSerial_mem hne
          have hlt' := hc s.lowest e he
          rw [hlow, hmax]
          exact le_of_lt hlt'
        by_cases hlim : limit ≤ ((evs'.length : Int))
        · rw [if_pos hlim]
          exact hstep
        · rw [if_neg hlim]
          exact le_trans hstep (ih s' evs')
    · rw [if_neg hlt]

/-- The concrete changelog feed of the spec's example: one batch with serials
`[101, 105, 103]` when queried at cursor 100, nothing afterwards. -/
def exampleChangelogFetch : Int → List RawEvent := fun since =>
  if since == 100 then
    [{ name := "pkg-a", version := "1", timestamp := 0, action := "new release", serial := 101 },
     { name := "pkg-b", version := "2", timestamp := 0, action := "new release", serial := 105 },
     { name := "pkg-c", version := "3", timestamp := 0, action := "new release", serial := 103 }]
  else []

/-- **C1**: every fetch-loop iteration that returns a non-empty batch sets the
cursor's lowest serial to the maximum serial among the fetched events (an
actual serial of the batch, bounding all of them); under the remote contract
that `changes_since(t)` returns only serials above `t`, the lowest after any
run is `≥` the lowest before it; and a batch with serials `[101, 105, 103]`
sets lowest to 105 (not the last-in-list 103 and not 101 = lowest + 1). -/
theorem claim1_cursor_advances_to_batch_max :
    (∀ (fetch : Int → List RawEvent) (s : Serials) (evs : List Event)
        (s' : Serials) (evs' : List Event),
        changelogIteration fetch s evs = some (s', evs') →
        s'.lowest = maxSerial (fetch s.lowest) ∧
        (∃ e ∈ fetch s.lowest, s'.lowest = e.serial) ∧
        (∀ e ∈ fetch s.lowest, e.serial ≤ s'.lowest)) ∧
    (∀ (fetch : Int → List RawEvent) (limit : Int) (fuel : Nat) (s : Serials)
        (evs : List Event), (∀ t : Int, ∀ e ∈ fetch t, t < e.serial) →
        s.lowest ≤ (fetchLoop fetch limit fuel s evs).1.lowest) ∧
    (fetchLoop exampleChangelogFetch 500000 10 ⟨100, 200⟩ []).1.lowest = 105 := by
  refine ⟨?_, ?_, ?_⟩
  · intro fetch s evs s' evs' h
    obtain ⟨hlow, hne, -, -⟩ := changelogIteration_eq_some h
    refine ⟨hlow, ?_, ?_⟩
    · obtain ⟨e, he, hmax⟩ := maxSerial_mem hne
      exact ⟨e, he, by rw [hlow, hmax]⟩
    · intro e he
      rw [hlow]
      exact le_maxSerial he
  · intro fetch limit fuel s evs hc
    exact fetchLoop_lowest_mono hc fuel s evs
  · rfl

/-- Witness for C1: the per-iteration facts at the spec's `[101, 105, 103]`
example, and run-level monotonicity at a concrete feed. -/
theorem claim1_witness :
    (100 : Int) ≤
      (fetchLoop (fun _ => ([] : List RawEvent)) 500000 5 ⟨100, 200⟩ []).1.lowest :=
  claim1_cursor_advances_to_batch_max.2.1 (fun _ => []) 500000 5 ⟨100, 200⟩ []
    (fun _ e he => absurd he (List.not_mem_nil e))

/-- **C5**: when the cursor is already caught up (`lowest ≥ highest`) the
fetch loop never runs and zero events accumulate; the code then raises
Python's `ValueError` from `min()` over the empty sequence even when
`min_events` is unset or 0, instead of completing without error as the spec
asserts.  (No artifact and no cursor file are written: the exception fires
before both writes.) -/
theorem claim5_caught_up_run_raises :
    ∀ fetch : Int → List RawEvent,
      download_changelog fetch 500000 none 10 5 5 = .error .emptyMinArg ∧
      download_changelog fetch 500000 (some 0) 10 5 5 = .error .emptyMinArg :=
  fun _ => ⟨rfl, rfl⟩

/-! ## Release-loop lemmas -/

theorem fetchReleases_cons_dot (fv : String → Except Unit ReleaseInfo)
    (vs : List String) : fetchReleases fv (".." :: vs) = fetchReleases fv vs := by
  rfl

theorem fetchReleases_cons_err (fv : String → Except Unit ReleaseInfo)
    {v : String} (vs : List String) (hdot : v ≠ "..")
    (herr : fv v = .error ()) :
    fetchReleases fv (v :: vs) = ([v], .error ()) := by
  rw [fetchReleases]
  rw [if_neg (by simpa using hdot), herr]

theorem fetchReleases_cons_ok (fv : String → Except Unit ReleaseInfo)
    {v : String} (vs : List String) {ri : ReleaseInfo} (hdot : v ≠ "..")
    (hok : fv v = .ok ri) :
    fetchReleases fv (v :: vs) =
      (v :: (fetchReleases fv vs).1,
       ((fetchReleases fv vs).2).map (fun rest => (v, ri) :: rest)) := by
  rw [fetchReleases]
  rw [if_neg (by simpa using hdot), hok]

theorem fetchReleases_isError_iff (fv : String → Except Unit ReleaseInfo) :
    ∀ vs : List String, (fetchReleases fv vs).2 = .error () ↔
      ∃ v ∈ vs, v ≠ ".." ∧ fv v = .error ()
  | [] => by simp [fetchReleases]
  | v :: vs => by
    by_cases hdot : v = ".."
    · subst hdot
      rw [fetchReleases_cons_dot, fetchReleases_isError_iff fv vs]
      constructor
      · rintro ⟨w, hw, hne, herr⟩
        exact ⟨w, List.mem_cons_of_mem _ hw, hne, herr⟩
      · rintro ⟨w, hw, hne, herr⟩
        rcases List.mem_cons.1 hw with h' | h'
        · exact absurd h' hne
        · exact ⟨w, h', hne, herr⟩
    · cases hfv : fv v with
      | error e =>
        cases e
        rw [fetchReleases_cons_err fv vs hdot hfv]
        constructor
        · intro _
          exact ⟨v, List.mem_cons_self v vs, hdot, hfv⟩
        · intro _
          rfl
      | ok ri =>
        rw [fetchReleases_cons_ok fv vs hdot hfv]
        have hmap : (((fetchReleases fv vs).2).map
            (fun rest => (v, ri) :: rest) = Except.error ()) ↔
            (fetchReleases fv vs).2 = .error () := by
          cases hr : (fetchReleases fv vs).2 with
          | error e => cases e; simp [Except.map]
          | ok rs => simp [Except.map]
        rw [show (v :: (fetchReleases fv vs).1,
            ((fetchReleases fv vs).2).map (fun rest => (v, ri) :: rest)).2 =
            ((fetchReleases fv vs).2).map (fun rest => (v, ri) :: rest) from rfl]
        rw [hmap, fetchReleases_isError_iff fv vs]
        constructor
        · rintro ⟨w, hw, hne, herr⟩
          exact ⟨w, List.mem_cons_of_mem _ hw, hne, herr⟩
        · rintro ⟨w, hw, hne, herr⟩
          rcases List.mem_cons.1 hw with h' | h'
          · exfalso
            rw [h'] at herr
            rw [herr] at hfv
            cases hfv
          · exact ⟨w, h', hne, herr⟩

theorem fetchReleases_keys_sublist (fv : String → Except Unit ReleaseInfo) :
    ∀ {vs : List String} {rs : Record},
      (fetchReleases fv vs).2 = .ok rs → List.Sublist (rs.map Prod.fst) vs
  | [], rs, h => by
    injection h with h'
    rw [← h']
    exact List.Sublist.refl []
  | v :: vs, rs, h => by
    by_cases hdot : v = ".."
    · subst hdot
      rw [fetchReleases_cons_dot] at h
      exact (fetchReleases_keys_sublist fv h).cons ".."
    · cases hfv : fv v with
      | error e =>
        cases e
        rw [fetchReleases_cons_err fv vs hdot hfv] at h
        cases h
      | ok ri =>
        rw [fetchReleases_cons_ok fv vs hdot hfv] at h
        cases hr : (fetchReleases fv vs).2 with
        | error e =>
          rw [hr] at h
          cases h
        | ok rest =>
          rw [hr] at h
          injection h with h'
          rw [← h']
          rw [List.map_cons]
          exact (fetchReleases_keys_sublist fv hr).cons₂ v

theorem fetchReleases_keys_no_dot (fv : String → Except Unit ReleaseInfo) :
    ∀ {vs : List String} {rs : Record},
      (fetchReleases fv vs).2 = .ok rs → ".." ∉ rs.map Prod.fst
  | [], rs, h => by
    injection h with h'
    rw [← h']
    exact List.not_mem_nil ".."
  | v :: vs, rs, h => by
    by_cases hdot : v = ".."
    · subst hdot
      rw [fetchReleases_cons_dot] at h
      exact fetchReleases_keys_no_dot fv h
    · cases hfv : fv v with
      | error e =>
        cases e
        rw [fetchReleases_cons_err fv vs hdot hfv] at h
        cases h
      | ok ri =>
        rw [fetchReleases_cons_ok fv vs hdot hfv] at h
        cases hr : (fetchReleases fv vs).2 with
        | error e =>
          rw [hr] at h
          cases h
        | ok rest =>
          rw [hr] at h
          injection h with h'
          rw [← h']
          rw [List.map_cons]
          intro hm
          rcases List.mem_cons.1 hm with h'' | h''
          · exact hdot h''.symm
          · exact fetchReleases_keys_no_dot fv hr h''

theorem fetchReleases_requests_no_dot (fv : String → Except Unit ReleaseInfo) :
    ∀ vs : List String, ".." ∉ (fetchReleases fv vs).1
  | [] => List.not_mem_nil ".."
  | v :: vs => by
    by_cases hdot : v = ".."
    · subst hdot
      rw [fetchReleases_cons_dot]
      exact fetchReleases_requests_no_dot fv vs
    · cases hfv : fv v with
      | error e =>
        cases e
        rw [fetchReleases_cons_err fv vs hdot hfv]
        intro hm
        rcases List.mem_cons.1 hm with h'' | h''
        · exact hdot h''.symm
        · cases h''
      | ok ri =>
        rw [fetchReleases_cons_ok fv vs hdot hfv]
        intro hm
        rcases List.mem_cons.1 hm with h'' | h''
        · exact hdot h''.symm
        · exact fetchReleases_requests_no_dot fv vs h''

/-! ## Description-stripping lemmas -/

theorem stripDescriptions_eq : ∀ {rs : Record} {last : String × ReleaseInfo},
    rs.getLast? = some last →
    stripDescriptions rs =
      rs.dropLast.map (fun p => (p.1, popDescription p.2)) ++ [last]
  | [], _, h => by cases h
  | [x], last, h => by
    have hx : x = last := by simpa using h
    subst hx
    rfl
  | x :: y :: xs, last, h => by
    have h' : (y :: xs).getLast? = some last := by
      rw [← List.getLast?_cons_cons (a := x)]
      exact h
    show (x.1, popDescription x.2) :: stripDescriptions (y :: xs) = _
    rw [stripDescriptions_eq h', List.dropLast_cons₂, List.map_cons,
      List.cons_append]

theorem stripDescriptions_keys : ∀ rs : Record,
    (stripDescriptions rs).map Prod.fst = rs.map Prod.fst
  | [] => rfl
  | [_] => rfl
  | x :: y :: xs => by
    show ((x.1, popDescription x.2) :: stripDescriptions (y :: xs)).map Prod.fst = _
    rw [List.map_cons, List.map_cons, stripDescriptions_keys (y :: xs)]

/-! ## `process_package` case equations -/

theorem process_package_summary_notfound (fv : String → Except Unit ReleaseInfo)
    (existing : Option Record) (name : String) (serial : Int) :
    process_package (.error ()) fv existing name serial =
      mkPkgResult name serial true false false 0 none := rfl

theorem process_package_skip {fv : String → Except Unit ReleaseInfo}
    (existing : Option Record) (name : String) (serial : Int)
    {vs : List String} (h : (fetchReleases fv vs).2 = .error ()) :
    process_package (.ok vs) fv existing name serial =
      mkPkgResult name serial false false true vs.length none := by
  rw [process_package, h]

theorem process_package_success {fv : String → Except Unit ReleaseInfo}
    (existing : Option Record) (name : String) (serial : Int)
    {vs : List String} {rs : Record} (h : (fetchReleases fv vs).2 = .ok rs) :
    process_package (.ok vs) fv existing name serial =
      mkPkgResult name serial false existing.isSome false vs.length
        (some (dictMerge (existing.getD []) (stripDescriptions rs))) := by
  rw [process_package, h]

/-- A tiny concrete release blob used to instantiate theorems. -/
def sampleRelease (v : String) : ReleaseInfo :=
  { info := { description := some v, rest := v }, rest := v }

/-- **C3**: when some version's detail fetch (for a version the loop actually
requests, i.e. one that is not `".."`) returns not-found, the item is marked
skipped, nothing is written to its record file (so a record from a prior run
is untouched), and the per-result checkpoint update of `download_releases`
leaves the checkpoint map unchanged. -/
theorem claim3_version_notfound_skips (fv : String → Except Unit ReleaseInfo)
    (existing : Option Record) (name : String) (serial : Int)
    (serialsMap : List (String × Int)) (vs : List String)
    (hfail : ∃ v ∈ vs, v ≠ ".." ∧ fv v = .error ()) :
    (process_package (.ok vs) fv existing name serial).skip = true ∧
    (process_package (.ok vs) fv existing name serial).stats.skipped = true ∧
    (process_package (.ok vs) fv existing name serial).written = none ∧
    applyResult serialsMap
      ((process_package (.ok vs) fv existing name serial).name,
       (process_package (.ok vs) fv existing name serial).serial,
       (process_package (.ok vs) fv existing name serial).skip) = serialsMap := by
  have herr : (fetchReleases fv vs).2 = .error () :=
    (fetchReleases_isError_iff fv vs).2 hfail
  rw [process_package_skip existing name serial herr]
  exact ⟨rfl, rfl, rfl, rfl⟩

/-- Witness for C3 at a concrete item: stored record for version `0.9`,
summary lists `1.0`, whose detail fetch 404s. -/
theorem claim3_witness :
    (process_package (.ok ["1.0"]) (fun _ => .error ())
      (some [("0.9", sampleRelease "0.9")]) "p" 3).skip = true ∧
    (process_package (.ok ["1.0"]) (fun _ => .error ())
      (some [("0.9", sampleRelease "0.9")]) "p" 3).stats.skipped = true ∧
    (process_package (.ok ["1.0"]) (fun _ => .error ())
      (some [("0.9", sampleRelease "0.9")]) "p" 3).written = none ∧
    applyResult [("p", 1)]
      ((process_package (.ok ["1.0"]) (fun _ => .error ())
        (some [("0.9", sampleRelease "0.9")]) "p" 3).name,
       (process_package (.ok ["1.0"]) (fun _ => .error ())
        (some [("0.9", sampleRelease "0.9")]) "p" 3).serial,
       (process_package (.ok ["1.0"]) (fun _ => .error ())
        (some [("0.9", sampleRelease "0.9")]) "p" 3).skip) = [("p", 1)] :=
  claim3_version_notfound_skips (fun _ => .error ())
    (some [("0.9", sampleRelease "0.9")]) "p" 3 [("p", 1)] ["1.0"]
    ⟨"1.0", List.mem_cons_self "1.0" [], by decide, rfl⟩

/-- **C4**: whenever `process_package` writes a merged record back, every
version key of the existing on-disk record is still a key of the merged
record — the `{**existing, **fetched}` merge never drops an existing key. -/
theorem claim4_merge_keeps_existing_keys (fs : Except Unit (List String))
    (fv : String → Except Unit ReleaseInfo) (existing : Option Record)
    (name : String) (serial : Int) (merged : Record)
    (hw : (process_package fs fv existing name serial).written = some merged) :
    ∀ k, (lookup? (existing.getD []) k).isSome → (lookup? merged k).isSome := by
  cases fs with
  | error e =>
    cases e
    rw [process_package_summary_notfound] at hw
    cases hw
  | ok vs =>
    cases hr : (fetchReleases fv vs).2 with
    | error e =>
      cases e
      rw [process_package_skip existing name serial hr] at hw
      cases hw
    | ok rs =>
      rw [process_package_success existing name serial hr] at hw
      injection hw with hw'
      intro k hk
      rw [← hw']
      exact lookup_dictMerge_of_mem_left _ hk

/-- Witness for C4: an existing record with key `1.0` keeps that key through
a merge with an empty freshly-fetched set. -/
theorem claim4_witness :
    (lookup? (dictMerge [("1.0", sampleRelease "1.0")]
      (stripDescriptions [])) "1.0").isSome :=
  claim4_merge_keeps_existing_keys (.ok []) (fun _ => .error ())
    (some [("1.0", sampleRelease "1.0")]) "p" 1
    (dictMerge [("1.0", sampleRelease "1.0")] (stripDescriptions []))
    rfl "1.0" (by decide)

/-- **C6**: in the record written back, every version fetched this run except
the most-recently-iterated one has its description removed, while the
most-recently-iterated fetched version keeps its fetched detail blob
(description included) — regardless of the existing record's contents. -/
theorem claim6_only_last_fetched_keeps_description
    (fv : String → Except Unit ReleaseInfo) (existing : Option Record)
    (name : String) (serial : Int) (vs : List String) (rs : Record)
    (merged : Record) (hnd : vs.Nodup)
    (hr : (fetchReleases fv vs).2 = .ok rs)
    (hw : (process_package (.ok vs) fv existing name serial).written = some merged)
    (hlen : 1 < merged.length) :
    (∀ p ∈ rs.dropLast, lookup? merged p.1 = some (popDescription p.2)) ∧
    (∀ p, rs.getLast? = some p → lookup? merged p.1 = some p.2) := by
  rw [process_package_success existing name serial hr] at hw
  injection hw with hw'
  have hkeys_nd : ((stripDescriptions rs).map Prod.fst).Nodup := by
    rw [stripDescriptions_keys]
    exact (fetchReleases_keys_sublist fv hr).nodup hnd
  constructor
  · intro p hp
    have hne : rs ≠ [] := by
      intro h0
      rw [h0] at hp
      cases hp
    obtain ⟨last, hlast⟩ : ∃ last, rs.getLast? = some last := by
      cases hgl : rs.getLast? with
      | none => exact absurd (List.getLast?_eq_none_iff.1 hgl) hne
      | some l => exact ⟨l, rfl⟩
    have hmem : (p.1, popDescription p.2) ∈ stripDescriptions rs := by
      rw [stripDescriptions_eq hlast]
      exact List.mem_append_left _ (List.mem_map_of_mem _ hp)
    have hstrip : lookup? (stripDescriptions rs) p.1 =
        some (popDescription p.2) :=
      lookup_of_nodup_mem hkeys_nd hmem
    rw [← hw',
      lookup_dictMerge_of_mem_right (existing.getD []) (by rw [hstrip]; rfl)]
    exact hstrip
  · intro p hlast
    have hmem : (p.1, p.2) ∈ stripDescriptions rs := by
      rw [stripDescriptions_eq hlast]
      exact List.mem_append_right _ (List.mem_singleton.2 rfl)
    have hstrip : lookup? (stripDescriptions rs) p.1 = some p.2 :=
      lookup_of_nodup_mem hkeys_nd hmem
    rw [← hw',
      lookup_dictMerge_of_mem_right (existing.getD []) (by rw [hstrip]; rfl)]
    exact hstrip

/-- Witness for C6 at a two-version fetch: `1.0` loses its description in the
merged output, `2.0` (the most-recently-iterated) keeps its blob intact. -/
theorem claim6_witness :
    lookup? (dictMerge []
        (stripDescriptions [("1.0", sampleRelease "1.0"), ("2.0", sampleRelease "2.0")]))
      "1.0" = some (popDescription (sampleRelease "1.0")) ∧
    lookup? (dictMerge []
        (stripDescriptions [("1.0", sampleRelease "1.0"), ("2.0", sampleRelease "2.0")]))
      "2.0" = some (sampleRelease "2.0") := by
  have h := claim6_only_last_fetched_keeps_description
    (fun v => .ok (sampleRelease v)) none "p" 1 ["1.0", "2.0"]
    [("1.0", sampleRelease "1.0"), ("2.0", sampleRelease "2.0")]
    (dictMerge []
      (stripDescriptions [("1.0", sampleRelease "1.0"), ("2.0", sampleRelease "2.0")]))
    (by decide) rfl rfl (by decide)
  exact ⟨h.1 ("1.0", sampleRelease "1.0") (by decide),
         h.2 ("2.0", sampleRelease "2.0") rfl⟩

/-- Counterexample to **C7** as stated: an existing on-disk record already
containing the malformed key `".."` (possible, since the merge preserves all
existing keys) flows through the merge, so `".."` appears as a key of the
merged record written back. -/
theorem claim7_counterexample :
    (process_package (.ok ["1.0"]) (fun v => .ok (sampleRelease v))
      (some [("..", sampleRelease "old")]) "p" 1).written =
    some [("..", sampleRelease "old"), ("1.0", sampleRelease "1.0")] := rfl

/-- **C7 amended**: `".."` is never used in an outbound per-version request
and never appears among the freshly fetched version keys; it can appear in
the merged record written back only when it was already a key of the existing
on-disk record. -/
theorem claim7_amended_dotdot_guard (fs : Except Unit (List String))
    (fv : String → Except Unit ReleaseInfo) (existing : Option Record)
    (name : String) (serial : Int) :
    (∀ vs : List String, ".." ∉ (fetchReleases fv vs).1) ∧
    (∀ (vs : List String) (rs : Record),
      (fetchReleases fv vs).2 = .ok rs → ".." ∉ rs.map Prod.fst) ∧
    (∀ merged : Record,
      (process_package fs fv existing name serial).written = some merged →
      (lookup? merged "..").isSome → (lookup? (existing.getD []) "..").isSome) := by
  refine ⟨fetchReleases_requests_no_dot fv,
    fun vs rs h => fetchReleases_keys_no_dot fv h, ?_⟩
  intro merged hw hm
  cases fs with
  | error e =>
    cases e
    rw [process_package_summary_notfound] at hw
    cases hw
  | ok vs =>
    cases hr : (fetchReleases fv vs).2 with
    | error e =>
      cases e
      rw [process_package_skip existing name serial hr] at hw
      cases hw
    | ok rs =>
      rw [process_package_success existing name serial hr] at hw
      injection hw with hw'
      rw [← hw'] at hm
      rcases lookup_dictMerge_isSome hm with h | h
      · exact h
      · exfalso
        have hnone : lookup? (stripDescriptions rs) ".." = none := by
          apply lookup_eq_none_of_not_mem
          rw [stripDescriptions_keys]
          exact fetchReleases_keys_no_dot fv hr
        rw [hnone] at h
        cases h

/-- Witness for C7 (amended): with an existing record keyed `".."`, the `".."`
key of the merged output indeed came from the existing record. -/
theorem claim7_witness :
    (lookup? ((some [("..", sampleRelease "old")] : Option Record).getD [])
      "..").isSome :=
  (claim7_amended_dotdot_guard (.ok []) (fun v => .ok (sampleRelease v))
    (some [("..", sampleRelease "old")]) "p" 1).2.2
    (dictMerge [("..", sampleRelease "old")] (stripDescriptions []))
    rfl (by decide)

/-- **C8**: a top-level summary 404 yields `not_found = true`,
`modified = false`, the item is not marked skipped, nothing is written, and
the per-result checkpoint update still advances the item's checkpoint to the
remote marker. -/
theorem claim8_toplevel_notfound_advances (fv : String → Except Unit ReleaseInfo)
    (existing : Option Record) (name : String) (serial : Int)
    (serialsMap : List (String × Int)) :
    (process_package (.error ()) fv existing name serial).stats.not_found = true ∧
    (process_package (.error ()) fv existing name serial).stats.modified = false ∧
    (process_package (.error ()) fv existing name serial).skip = false ∧
    (process_package (.error ()) fv existing name serial).stats.skipped = false ∧
    (process_package (.error ()) fv existing name serial).written = none ∧
    applyResult serialsMap
      ((process_package (.error ()) fv existing name serial).name,
       (process_package (.error ()) fv existing name serial).serial,
       (process_package (.error ()) fv existing name serial).skip) =
      setKey serialsMap (lowerName name) serial ∧
    lookup? (applyResult serialsMap
      ((process_package (.error ()) fv existing name serial).name,
       (process_package (.error ()) fv existing name serial).serial,
       (process_package (.error ()) fv existing name serial).skip))
      (lowerName name) = some serial := by
  refine ⟨rfl, rfl, rfl, rfl, rfl, rfl, ?_⟩
  show lookup? (setKey serialsMap (lowerName name) serial) (lowerName name) = some serial
  exact lookup_setKey_self serialsMap (lowerName name) serial

/-- `true` exactly on the `NotFound` arm of a fetch result. -/
def exceptFailed {α : Type} : Except Unit α → Bool
  | .error _ => true
  | .ok _ => false

/-- Counterexample to **C10** as stated: an item with an existing record
whose only listed version 404s is marked skipped, yet gets
`modified = false` (though a record existed before the run) and `new = true`
(though the claim says a skipped item is not counted as new). -/
theorem claim10_counterexample :
    (process_package (.ok ["2.0"]) (fun _ => .error ())
      (some [("1.0", sampleRelease "1.0")]) "p" 7).stats =
    { not_found := false, releases := 1, modified := false, new := true,
      skipped := true } := rfl

/-- **C10 amended**: `not_found` iff the summary fetch 404s; `releases` is the
number of versions the summary listed (0 when not found); `skipped` iff the
version loop broke on a 404; `modified` iff the item was found, the fetch
completed fully, and a record existed before; `new = !not_found && !modified`
— so a skipped item is counted as new and never as modified. -/
theorem claim10_amended_stats (fs : Except Unit (List String))
    (fv : String → Except Unit ReleaseInfo) (existing : Option Record)
    (name : String) (serial : Int) :
    (process_package fs fv existing name serial).stats.not_found =
      exceptFailed fs ∧
    (process_package fs fv existing name serial).stats.releases =
      (match fs with | .ok vs => vs.length | .error _ => 0) ∧
    (process_package fs fv existing name serial).stats.skipped =
      (match fs with
       | .ok vs => exceptFailed (fetchReleases fv vs).2
       | .error _ => false) ∧
    (process_package fs fv existing name serial).stats.modified =
      ((!(process_package fs fv existing name serial).stats.not_found) &&
       (!(process_package fs fv existing name serial).stats.skipped) &&
       existing.isSome) ∧
    (process_package fs fv existing name serial).stats.new =
      ((!(process_package fs fv existing name serial).stats.not_found) &&
       (!(process_package fs fv existing name serial).stats.modified)) := by
  cases fs with
  | error e =>
    cases e
    exact ⟨rfl, rfl, rfl, rfl, rfl⟩
  | ok vs =>
    cases hr : (fetchReleases fv vs).2 with
    | error e =>
      cases e
      rw [process_package_skip existing name serial hr]
      refine ⟨rfl, rfl, ?_, rfl, rfl⟩
      show true = exceptFailed (fetchReleases fv vs).2
      rw [hr]
      rfl
    | ok rs =>
      rw [process_package_success existing name serial hr]
      refine ⟨rfl, rfl, ?_, ?_, rfl⟩
      · show false = exceptFailed (fetchReleases fv vs).2
        rw [hr]
        rfl
      · cases existing <;> rfl

/-! ## Work-queue lemmas: a stable sort commutes with filtering -/

theorem filter_orderedInsert {α : Type} (r : α → α → Prop) [DecidableRel r]
    [IsTotal α r] [IsTrans α r] (p : α → Bool) (x : α) :
    ∀ {L : List α}, L.Sorted r →
      (List.orderedInsert r x L).filter p =
        if p x then List.orderedInsert r x (L.filter p) else L.filter p
  | [], _ => by
    by_cases hp : p x <;> simp [List.orderedInsert, hp]
  | y :: ys, hs => by
    rcases List.sorted_cons.1 hs with ⟨hy, hys⟩
    show (if r x y then x :: y :: ys else y :: List.orderedInsert r x ys).filter p = _
    by_cases hr : r x y
    · rw [if_pos hr]
      by_cases hp : p x
      · rw [if_pos hp, List.filter_cons_of_pos hp]
        cases hM : (y :: ys).filter p with
        | nil => rfl
        | cons m rest =>
          have hm : m ∈ (y :: ys).filter p := by
            rw [hM]
            exact List.mem_cons_self m rest
          have hm' : m ∈ y :: ys := List.mem_of_mem_filter hm
          have hxm : r x m := by
            rcases List.mem_cons.1 hm' with h' | h'
            · rw [h']
              exact hr
            · exact IsTrans.trans x y m hr (hy m h')
          rw [show List.orderedInsert r x (m :: rest) =
            if r x m then x :: m :: rest else m :: List.orderedInsert r x rest from rfl]
          rw [if_pos hxm]
      · rw [if_neg hp, List.filter_cons_of_neg hp]
    · rw [if_neg hr]
      by_cases hpy : p y
      · rw [List.filter_cons_of_pos hpy, List.filter_cons_of_pos hpy,
          filter_orderedInsert r p x hys]
        by_cases hp : p x
        · rw [if_pos hp, if_pos hp]
          show _ = if r x y then x :: y :: ys.filter p
            else y :: List.orderedInsert r x (ys.filter p)
          rw [if_neg hr]
        · rw [if_neg hp, if_neg hp]
      · rw [List.filter_cons_of_neg hpy, List.filter_cons_of_neg hpy,
          filter_orderedInsert r p x hys]

theorem filter_insertionSort {α : Type} (r : α → α → Prop) [DecidableRel r]
    [IsTotal α r] [IsTrans α r] (p : α → Bool) :
    ∀ l : List α,
      (List.insertionSort r l).filter p = List.insertionSort r (l.filter p)
  | [] => rfl
  | x :: xs => by
    show (List.orderedInsert r x (List.insertionSort r xs)).filter p = _
    rw [filter_orderedInsert r p x (List.sorted_insertionSort r xs),
      filter_insertionSort r p xs]
    by_cases hp : p x
    · rw [if_pos hp, List.filter_cons_of_pos hp]
      rfl
    · rw [if_neg hp, List.filter_cons_of_neg hp]

/-- **C2**: the work queue computed by `download_releases` (stable sort of the
remote map by marker, then keep the pairs whose stored checkpoint differs or
is absent, then truncate to `limit`) coincides with the spec's description
(filter first, then stable-sort ascending by marker, then truncate), and the
spec's example (remote `{"foo": 5, "bar": 3}`, stored `{"foo": 5}`, limit 10)
yields exactly `[("bar", 3)]`. -/
theorem claim2_work_queue_matches_spec :
    (∀ (remote stored : List (String × Int)) (limit : Int),
      packages_to_process remote stored limit =
        specWorkQueue remote stored limit) ∧
    packages_to_process [("foo", 5), ("bar", 3)] [("foo", 5)] 10 =
      [("bar", 3)] := by
  constructor
  · intro remote stored limit
    unfold packages_to_process specWorkQueue changed_packages sorted_changes
    rw [filter_insertionSort markerLe]
  · rfl

/-! ## Catalog-run lemmas (towards idempotence) -/

theorem process_package_name_serial (fs : Except Unit (List String))
    (fv : String → Except Unit ReleaseInfo) (d : Option Record)
    (n : String) (s : Int) :
    (process_package fs fv d n s).name = n ∧
      (process_package fs fv d n s).serial = s := by
  cases fs with
  | error e =>
    cases e
    exact ⟨rfl, rfl⟩
  | ok vs =>
    cases hr : (fetchReleases fv vs).2 with
    | error e =>
      cases e
      rw [process_package_skip d n s hr]
      exact ⟨rfl, rfl⟩
    | ok rs =>
      rw [process_package_success d n s hr]
      exact ⟨rfl, rfl⟩

/-- Whether an item's sync ends in the skip path, as a function of the fetch
oracles only: the skip decision never reads the record file. -/
def skipPred (fs : String → Except Unit (List String))
    (fv : String → String → Except Unit ReleaseInfo) (p : String × Int) : Bool :=
  match fs p.1 with
  | .error _ => false
  | .ok vs => exceptFailed (fetchReleases (fv p.1) vs).2

theorem process_package_skip_eq (fs : String → Except Unit (List String))
    (fv : String → String → Except Unit ReleaseInfo) (d : Option Record)
    (p : String × Int) :
    (process_package (fs p.1) (fv p.1) d p.1 p.2).skip = skipPred fs fv p := by
  unfold skipPred
  cases hfs : fs p.1 with
  | error e =>
    cases e
    rfl
  | ok vs =>
    cases hr : (fetchReleases (fv p.1) vs).2 with
    | error e =>
      cases e
      rw [process_package_skip d p.1 p.2 hr]
      show true = exceptFailed (fetchReleases (fv p.1) vs).2
      rw [hr]
      rfl
    | ok rs =>
      rw [process_package_success d p.1 p.2 hr]
      show false = exceptFailed (fetchReleases (fv p.1) vs).2
      rw [hr]
      rfl

theorem process_package_written_of_skip
    (fs : String → Except Unit (List String))
    (fv : String → String → Except Unit ReleaseInfo) (d : Option Record)
    (p : String × Int) (h : skipPred fs fv p = true) :
    (process_package (fs p.1) (fv p.1) d p.1 p.2).written = none := by
  unfold skipPred at h
  cases hfs : fs p.1 with
  | error e =>
    rw [hfs] at h
    have hfalse : false = true := h
    cases hfalse
  | ok vs =>
    rw [hfs] at h
    cases hr : (fetchReleases (fv p.1) vs).2 with
    | error e =>
      cases e
      rw [process_package_skip d p.1 p.2 hr]
      rfl
    | ok rs =>
      have hfe : exceptFailed (fetchReleases (fv p.1) vs).2 = true := h
      rw [hr] at hfe
      cases hfe

/-- The checkpoint-map fold of `download_releases`, expressed directly over
the work queue. -/
def catFold (fs : String → Except Unit (List String))
    (fv : String → String → Except Unit ReleaseInfo)
    (stored : List (String × Int)) (queue : List (String × Int)) :
    List (String × Int) :=
  queue.foldl
    (fun m p => if skipPred fs fv p then m else setKey m (lowerName p.1) p.2) stored

theorem foldl_applyResult_eq (fs : String → Except Unit (List String))
    (fv : String → String → Except Unit ReleaseInfo)
    (disk : String → Option Record) :
    ∀ (queue : List (String × Int)) (stored : List (String × Int)),
      queue.foldl (fun m p => applyResult m
        ((process_package (fs p.1) (fv p.1) (disk (lowerName p.1)) p.1 p.2).name,
         (process_package (fs p.1) (fv p.1) (disk (lowerName p.1)) p.1 p.2).serial,
         (process_package (fs p.1) (fv p.1) (disk (lowerName p.1)) p.1 p.2).skip))
        stored =
      catFold fs fv stored queue
  | [], _ => rfl
  | p :: rest, stored => by
    rw [List.foldl_cons]
    have h1 := process_package_name_serial (fs p.1) (fv p.1) (disk (lowerName p.1))
      p.1 p.2
    have h2 := process_package_skip_eq fs fv (disk (lowerName p.1)) p
    have hstep : applyResult stored
        ((process_package (fs p.1) (fv p.1) (disk (lowerName p.1)) p.1 p.2).name,
         (process_package (fs p.1) (fv p.1) (disk (lowerName p.1)) p.1 p.2).serial,
         (process_package (fs p.1) (fv p.1) (disk (lowerName p.1)) p.1 p.2).skip) =
        if skipPred fs fv p then stored else setKey stored (lowerName p.1) p.2 := by
      rw [h1.1, h1.2, h2]
      rfl
    rw [hstep]
    exact foldl_applyResult_eq fs fv disk rest _

theorem download_releases_serials (fs : String → Except Unit (List String))
    (fv : String → String → Except Unit ReleaseInfo)
    (disk : String → Option Record) (remote stored : List (String × Int))
    (limit : Int) :
    (download_releases fs fv disk remote stored limit).1 =
      catFold fs fv stored (packages_to_process remote stored limit) := by
  simp only [download_releases]
  rw [List.foldl_map]
  exact foldl_applyResult_eq fs fv disk _ stored

theorem lookup_catFold_not_mem (fs : String → Except Unit (List String))
    (fv : String → String → Except Unit ReleaseInfo) :
    ∀ (queue : List (String × Int)) (stored : List (String × Int)) (n : String),
      (∀ p ∈ queue, (lowerName p.1) = p.1) → n ∉ queue.map Prod.fst →
      lookup? (catFold fs fv stored queue) n = lookup? stored n
  | [], _, _, _, _ => rfl
  | p :: rest, stored, n, hl, hn => by
    have hne : n ≠ p.1 := by
      intro h
      apply hn
      rw [List.map_cons, h]
      exact List.mem_cons_self _ _
    have hl' : ∀ q ∈ rest, (lowerName q.1) = q.1 :=
      fun q hq => hl q (List.mem_cons_of_mem p hq)
    have hn' : n ∉ rest.map Prod.fst := by
      intro h
      apply hn
      rw [List.map_cons]
      exact List.mem_cons_of_mem _ h
    show lookup? (catFold fs fv
      (if skipPred fs fv p then stored else setKey stored (lowerName p.1) p.2)
      rest) n = _
    rw [lookup_catFold_not_mem fs fv rest _ n hl' hn']
    by_cases hs : skipPred fs fv p
    · rw [if_pos hs]
    · rw [if_neg hs, hl p (List.mem_cons_self p rest)]
      exact lookup_setKey_ne stored p.1 p.2 hne

theorem lookup_catFold_mem (fs : String → Except Unit (List String))
    (fv : String → String → Except Unit ReleaseInfo) :
    ∀ (queue : List (String × Int)) (stored : List (String × Int))
      (p0 : String × Int),
      (queue.map Prod.fst).Nodup → (∀ p ∈ queue, (lowerName p.1) = p.1) →
      p0 ∈ queue →
      lookup? (catFold fs fv stored queue) p0.1 =
        if skipPred fs fv p0 then lookup? stored p0.1 else some p0.2
  | [], _, p0, _, _, hmem => absurd hmem (List.not_mem_nil p0)
  | p :: rest, stored, p0, hnd, hl, hmem => by
    rw [List.map_cons, List.nodup_cons] at hnd
    obtain ⟨hnd1, hnd2⟩ := hnd
    have hl' : ∀ q ∈ rest, (lowerName q.1) = q.1 :=
      fun q hq => hl q (List.mem_cons_of_mem p hq)
    show lookup? (catFold fs fv
      (if skipPred fs fv p then stored else setKey stored (lowerName p.1) p.2)
      rest) p0.1 = _
    rcases List.mem_cons.1 hmem with h0 | h0
    · subst h0
      rw [lookup_catFold_not_mem fs fv rest _ p0.1 hl' hnd1]
      by_cases hs : skipPred fs fv p0
      · rw [if_pos hs, if_pos hs]
      · rw [if_neg hs, if_neg hs, hl p0 (List.mem_cons_self _ _)]
        exact lookup_setKey_self stored p0.1 p0.2
    · have hne : p0.1 ≠ p.1 := by
        intro he
        apply hnd1
        have hk : p0.1 ∈ rest.map Prod.fst := List.mem_map_of_mem Prod.fst h0
        rw [← he]
        exact hk
      rw [lookup_catFold_mem fs fv rest _ p0 hnd2 hl' h0]
      by_cases hs : skipPred fs fv p
      · rw [if_pos hs]
      · rw [if_neg hs]
        by_cases hs0 : skipPred fs fv p0
        · rw [if_pos hs0, if_pos hs0, hl p (List.mem_cons_self _ _)]
          exact lookup_setKey_ne stored p.1 p.2 hne
        · rw [if_neg hs0, if_neg hs0]

theorem catFold_all_skip (fs : String → Except Unit (List String))
    (fv : String → String → Except Unit ReleaseInfo) :
    ∀ (queue : List (String × Int)) (stored : List (String × Int)),
      (∀ p ∈ queue, skipPred fs fv p = true) →
      catFold fs fv stored queue = stored
  | [], _, _ => rfl
  | p :: rest, stored, h => by
    show catFold fs fv
      (if skipPred fs fv p then stored else setKey stored (lowerName p.1) p.2)
      rest = stored
    rw [if_pos (h p (List.mem_cons_self _ _))]
    exact catFold_all_skip fs fv rest stored
      (fun q hq => h q (List.mem_cons_of_mem p hq))

theorem download_releases_writes_nil (fs : String → Except Unit (List String))
    (fv : String → String → Except Unit ReleaseInfo)
    (disk : String → Option Record) (remote stored : List (String × Int))
    (limit : Int)
    (h : ∀ p ∈ packages_to_process remote stored limit,
      skipPred fs fv p = true) :
    (download_releases fs fv disk remote stored limit).2 = [] := by
  simp only [download_releases]
  rw [List.filterMap_eq_nil_iff]
  intro r hr
  obtain ⟨p, hp, hpr⟩ := List.mem_map.1 hr
  rw [← hpr, process_package_written_of_skip fs fv _ p (h p hp)]
  rfl

theorem packages_to_process_all {remote stored : List (String × Int)}
    {limit : Int}
    (h : ((changed_packages remote stored).length : Int) ≤ limit) :
    packages_to_process remote stored limit = changed_packages remote stored := by
  unfold packages_to_process pySlice0
  have h0 : (0 : Int) ≤ limit := le_trans (Int.ofNat_nonneg _) h
  rw [if_pos h0]
  apply List.take_of_length_le
  omega

theorem changed_packages_subset {remote stored : List (String × Int)} :
    ∀ p ∈ changed_packages remote stored, p ∈ remote := by
  intro p hp
  have hs := List.mem_of_mem_filter hp
  exact (List.perm_insertionSort markerLe remote).subset hs

theorem changed_packages_nodup {remote stored : List (String × Int)}
    (h : (remote.map Prod.fst).Nodup) :
    ((changed_packages remote stored).map Prod.fst).Nodup := by
  have hperm : List.Perm (sorted_changes remote) remote :=
    List.perm_insertionSort markerLe remote
  have h1 : ((sorted_changes remote).map Prod.fst).Nodup :=
    ((hperm.map Prod.fst).nodup_iff).2 h
  have h2 : List.Sublist (changed_packages remote stored)
      (sorted_changes remote) := List.filter_sublist _
  exact (h2.map Prod.fst).nodup h1

/-- Core of the idempotence argument: after an untruncated catalog run, a
second run against the same remote map and the same fetch oracles mutates no
checkpoint and writes no record file, whatever the state of the record files
(the still-queued items are exactly the skipped ones, and a skipped item's
processing never reads or writes a record file). -/
theorem catalog_second_run (fs : String → Except Unit (List String))
    (fv : String → String → Except Unit ReleaseInfo)
    (disk disk2 : String → Option Record)
    (remote stored : List (String × Int)) (limit : Int)
    (hnd : (remote.map Prod.fst).Nodup)
    (hlow : ∀ p ∈ remote, (lowerName p.1) = p.1)
    (hlim : ((changed_packages remote stored).length : Int) ≤ limit) :
    download_releases fs fv disk2 remote
      (download_releases fs fv disk remote stored limit).1 limit =
    ((download_releases fs fv disk remote stored limit).1, []) := by
  have hq1 : packages_to_process remote stored limit =
      changed_packages remote stored := packages_to_process_all hlim
  set serials1 := (download_releases fs fv disk remote stored limit).1
    with hserdef
  have hserials1 : serials1 =
      catFold fs fv stored (changed_packages remote stored) := by
    rw [hserdef, download_releases_serials, hq1]
  have hlow' : ∀ p ∈ changed_packages remote stored, (lowerName p.1) = p.1 :=
    fun p hp => hlow p (changed_packages_subset p hp)
  have hnd' : ((changed_packages remote stored).map Prod.fst).Nodup :=
    changed_packages_nodup hnd
  have hkey : ∀ p ∈ remote, (lookup? serials1 p.1 ≠ some p.2 ↔
      (lookup? stored p.1 ≠ some p.2 ∧ skipPred fs fv p = true)) := by
    intro p hp
    by_cases hchanged : lookup? stored p.1 = some p.2
    · have hnotin : p.1 ∉ (changed_packages remote stored).map Prod.fst := by
        intro hin
        obtain ⟨q, hq, hq1'⟩ := List.mem_map.1 hin
        have hqr : q ∈ remote := changed_packages_subset q hq
        have hq2 : q.2 = p.2 := by
          apply nodup_fst_eq hnd ?_ hp
          rw [← hq1']
          exact hqr
        have hqp : q = p := Prod.ext hq1' hq2
        rw [hqp] at hq
        have hfiltered : (lookup? stored p.1 != some p.2) = true :=
          (List.mem_filter.1 hq).2
        exact absurd hchanged (bne_iff_ne.1 hfiltered)
      have hlookup : lookup? serials1 p.1 = lookup? stored p.1 := by
        rw [hserials1]
        exact lookup_catFold_not_mem fs fv _ stored p.1 hlow' hnotin
      rw [hlookup]
      constructor
      · intro hne
        exact absurd hchanged hne
      · rintro ⟨hne, -⟩
        exact absurd hchanged hne
    · have hpin : p ∈ changed_packages remote stored := by
        show p ∈ (sorted_changes remote).filter _
        apply List.mem_filter.2
        constructor
        · exact (List.perm_insertionSort markerLe remote).symm.subset hp
        · show (lookup? stored p.1 != some p.2) = true
          exact bne_iff_ne.2 hchanged
      rw [hserials1, lookup_catFold_mem fs fv _ stored p hnd' hlow' hpin]
      by_cases hs : skipPred fs fv p
      · rw [if_pos hs]
        constructor
        · intro hne
          exact ⟨hne, hs⟩
        · rintro ⟨hne, -⟩
          exact hne
      · rw [if_neg hs]
        constructor
        · intro hne
          exact absurd rfl hne
        · rintro ⟨-, hc⟩
          exact absurd hc hs
  have hchanged2 : changed_packages remote serials1 =
      (changed_packages remote stored).filter (fun p => skipPred fs fv p) := by
    show (sorted_changes remote).filter _ = _
    rw [show changed_packages remote stored =
      (sorted_changes remote).filter
        (fun p => lookup? stored p.1 != some p.2) from rfl]
    rw [List.filter_filter]
    apply List.filter_congr
    intro p hp
    have hpr : p ∈ remote :=
      (List.perm_insertionSort markerLe remote).subset hp
    have h2 := hkey p hpr
    show (lookup? serials1 p.1 != some p.2) =
      (skipPred fs fv p && (lookup? stored p.1 != some p.2))
    by_cases hA : lookup? serials1 p.1 = some p.2
    · rw [bne_eq_false_iff_eq.2 hA]
      cases hC : skipPred fs fv p
      · rfl
      · cases hD : (lookup? stored p.1 != some p.2) with
        | true => exact absurd hA (h2.2 ⟨bne_iff_ne.1 hD, hC⟩)
        | false => rfl
    · obtain ⟨hD, hC⟩ := h2.1 hA
      rw [bne_iff_ne.2 hA, hC, bne_iff_ne.2 hD]
      rfl
  have hlim2 : ((changed_packages remote serials1).length : Int) ≤ limit := by
    rw [hchanged2]
    have hlen := List.length_filter_le (fun p => skipPred fs fv p)
      (changed_packages remote stored)
    omega
  have hq2 : packages_to_process remote serials1 limit =
      changed_packages remote serials1 := packages_to_process_all hlim2
  have hallskip : ∀ p ∈ packages_to_process remote serials1 limit,
      skipPred fs fv p = true := by
    intro p hp
    rw [hq2, hchanged2] at hp
    exact (List.mem_filter.1 hp).2
  rw [Prod.ext_iff]
  constructor
  · show (download_releases fs fv disk2 remote serials1 limit).1 = serials1
    rw [download_releases_serials, hq2]
    apply catFold_all_skip
    intro p hp
    exact hallskip p (by rw [hq2]; exact hp)
  · exact download_releases_writes_nil fs fv disk2 remote serials1 limit hallskip

/-- Counterexample to **C9** as stated: remote map `{a: 1, b: 2}` with empty
stored checkpoints and `limit = 1`.  The first run processes only `a`
(truncation), writing its record and checkpoint; the second run, with no
remote change at all, still processes `b`: it mutates the checkpoint map
(adds `b -> 2`) and writes one record file. -/
theorem claim9_counterexample :
    download_releases (fun _ => .ok []) (fun _ _ => .error ())
      (fun _ => none) [("a", 1), ("b", 2)] [] 1 =
      ([("a", 1)], [("a", [])]) ∧
    download_releases (fun _ => .ok []) (fun _ _ => .error ())
      (fun nm => (lookup? [("a", ([] : Record))] nm).or none)
      [("a", 1), ("b", 2)] [("a", 1)] 1 =
      ([("a", 1), ("b", 2)], [("b", [])]) := by
  constructor
  · rfl
  · rfl

/-- **C9 amended**: if the first run's work queue was not truncated by the
limit, then a second `sync_catalog` run — against the same remote map, the
same fetch oracles, and the record files left by the first run — performs
zero checkpoint mutations and zero record-file writes.  (Hypotheses: remote
names are distinct and already lowercase, as the source builds them.) -/
theorem claim9_second_run_idempotent (fs : String → Except Unit (List String))
    (fv : String → String → Except Unit ReleaseInfo)
    (disk : String → Option Record) (remote stored : List (String × Int))
    (limit : Int) (serials1 : List (String × Int))
    (writes1 : List (String × Record))
    (hnd : (remote.map Prod.fst).Nodup)
    (hlow : ∀ p ∈ remote, (lowerName p.1) = p.1)
    (hlim : ((changed_packages remote stored).length : Int) ≤ limit)
    (hrun : download_releases fs fv disk remote stored limit =
      (serials1, writes1)) :
    download_releases fs fv (fun nm => (lookup? writes1 nm).or (disk nm))
      remote serials1 limit = (serials1, []) := by
  have h := catalog_second_run fs fv disk
    (fun nm => (lookup? writes1 nm).or (disk nm)) remote stored limit
    hnd hlow hlim
  rw [hrun] at h
  exact h

/-- Witness for C9 (amended) at a one-item catalog: the second run leaves the
checkpoint map alone and writes nothing. -/
theorem claim9_witness :
    download_releases (fun _ => .ok ["1.0"]) (fun _ v => .ok (sampleRelease v))
      (fun nm =>
        (lookup? [("a", [("1.0", sampleRelease "1.0")])] nm).or
          ((fun _ => (none : Option Record)) nm))
      [("a", 1)] [("a", 1)] 5 = ([("a", 1)], []) :=
  claim9_second_run_idempotent (fun _ => .ok ["1.0"])
    (fun _ v => .ok (sampleRelease v)) (fun _ => none) [("a", 1)] [] 5
    [("a", 1)] [("a", [("1.0", sampleRelease "1.0")])]
    (by decide) (by decide) (by decide) rfl

end PypiData
